import Mathlib

/-!
Shallow embedding of the LABS optimizer core (`src/labs_optimizer/core.py`)
and proofs of the specified properties.

Sequences are modelled as `List Int`; the Python in-place update
`current_seq[i] *= -1` becomes a functional list update; the module-level
random source consumed by `generate_random_sequence` becomes an explicit
stream `g : Nat → Int` of draws together with an offset that advances as
draws are consumed; `float('inf')` used as the initial best cost becomes
`⊤ : WithTop Int`.
-/

/-- Models the Python statement `current_seq[i] *= -1`: the sign flip of
element `i`, as a functional update of the list. -/
def flipBit (s : List Int) (i : Nat) : List Int :=
  s.set i (-(s.getD i 0))

/-- Inner loop of `labs_cost` (core.py lines 28-33): the autocorrelation
`c_k`, accumulated by `for i in range(N - k): c_k += sequence[i] * sequence[i + k]`. -/
def autocorrelation (s : List Int) (k : Nat) : Int :=
  ((List.range (s.length - k)).map (fun i => s.getD i 0 * s.getD (i + k) 0)).sum

/-- Embedding of `labs_cost` (core.py lines 3-38): the outer loop
`for k in range(1, N)` accumulating `c_k ** 2` into `total_cost`. -/
def labs_cost (s : List Int) : Int :=
  ((List.range' 1 (s.length - 1)).map (fun k => autocorrelation s k ^ 2)).sum

/-- Spec-side autocorrelation, written from the spec's words: the
periodic (non-cyclic) autocorrelation `C_k = Σ_{i=0}^{N-k-1} s[i]·s[i+k]`. -/
def C_spec (s : List Int) (k : Nat) : Int :=
  ∑ i in Finset.range (s.length - k), s.getD i 0 * s.getD (i + k) 0

/-- Spec-side cost, written from the spec's words: for each shift `k` in
`[1, N-1]`, sum the square of `C_k`. -/
def evaluate_spec (s : List Int) : Int :=
  ∑ k in Finset.Icc 1 (s.length - 1), C_spec s k ^ 2

/-- One step of the inner `for i in range(N)` loop of
`hill_climb_deterministic` (core.py lines 102-116): flip bit `i`, recompute
the cost, keep the flip on strict improvement, otherwise flip back. -/
def passStep (acc : List Int × Int × Bool) (i : Nat) : List Int × Int × Bool :=
  let s := acc.1
  let c := acc.2.1
  let s1 := flipBit s i
  let c1 := labs_cost s1
  if c1 < c then (s1, c1, true) else (flipBit s1 i, c, acc.2.2)

/-- One full pass of `hill_climb_deterministic` over every bit, starting
from `improved = False`. -/
def onePass (s : List Int) (c : Int) : List Int × Int × Bool :=
  (List.range s.length).foldl passStep (s, c, false)

theorem labs_cost_nonneg (s : List Int) : 0 ≤ labs_cost s := by
  refine List.sum_nonneg ?_
  intro x hx
  simp only [List.mem_map] at hx
  obtain ⟨k, -, rfl⟩ := hx
  exact sq_nonneg _

theorem flipBit_flipBit (s : List Int) (i : Nat) : flipBit (flipBit s i) i = s := by
  induction s generalizing i with
  | nil => rfl
  | cons a t ih =>
      cases i with
      | zero => simp [flipBit, List.getD]
      | succ j => simpa [flipBit, List.getD] using ih j

/-- The accumulated cost never increases along the inner loop. -/
theorem foldl_passStep_cost_le (l : List Nat) :
    ∀ s c b, ((l.foldl passStep (s, c, b)).2.1 ≤ c) := by
  induction l with
  | nil => intro s c b; simp
  | cons i t ih =>
      intro s c b
      simp only [List.foldl_cons, passStep]
      split
      · exact le_trans (ih _ _ _) (le_of_lt (by assumption))
      · rw [flipBit_flipBit]; exact ih _ _ _

/-- Non-negativity of the accumulated cost is preserved along the inner loop. -/
theorem foldl_passStep_cost_nonneg (l : List Nat) :
    ∀ s c b, 0 ≤ c → 0 ≤ (l.foldl passStep (s, c, b)).2.1 := by
  induction l with
  | nil => intro s c b h; simpa
  | cons i t ih =>
      intro s c b h
      simp only [List.foldl_cons, passStep]
      split
      · exact ih _ _ _ (labs_cost_nonneg _)
      · rw [flipBit_flipBit]; exact ih _ _ _ h

/-- The loop invariant of `hill_climb_deterministic`: the tracked cost is
the cost of the tracked sequence. -/
theorem foldl_passStep_invariant (l : List Nat) :
    ∀ s c b, c = labs_cost s →
      (l.foldl passStep (s, c, b)).2.1 = labs_cost (l.foldl passStep (s, c, b)).1 := by
  induction l with
  | nil => intro s c b h; simpa
  | cons i t ih =>
      intro s c b h
      simp only [List.foldl_cons, passStep]
      split
      · exact ih _ _ _ rfl
      · rw [flipBit_flipBit]; exact ih _ _ _ h

/-- Once `improved` has been set it stays set for the rest of the pass. -/
theorem foldl_passStep_improved_stays (l : List Nat) :
    ∀ s c, (l.foldl passStep (s, c, true)).2.2 = true := by
  induction l with
  | nil => intro s c; rfl
  | cons i t ih =>
      intro s c
      simp only [List.foldl_cons, passStep]
      split
      · exact ih _ _
      · rw [flipBit_flipBit]; exact ih _ _

/-- If a pass that started with `improved = False` ends with it set, the
cost strictly decreased during the pass (and is a cost of some sequence,
hence non-negative). -/
theorem foldl_passStep_strict (l : List Nat) :
    ∀ s c, (l.foldl passStep (s, c, false)).2.2 = true →
      (l.foldl passStep (s, c, false)).2.1 < c ∧
        0 ≤ (l.foldl passStep (s, c, false)).2.1 := by
  induction l with
  | nil => intro s c h; simp at h
  | cons i t ih =>
      intro s c h
      simp only [List.foldl_cons, passStep] at h ⊢
      split
      · rename_i hlt
        constructor
        · exact lt_of_le_of_lt (foldl_passStep_cost_le t _ _ _) hlt
        · exact foldl_passStep_cost_nonneg t _ _ _ (labs_cost_nonneg _)
      · rename_i hge
        rw [flipBit_flipBit] at h ⊢
        split at h
        · simp_all
        · exact ih _ _ h

/-- If a pass that started with `improved = False` ends with it still
clear, the pass changed nothing at all. -/
theorem foldl_passStep_noimprove (l : List Nat) :
    ∀ s c, (l.foldl passStep (s, c, false)).2.2 = false →
      l.foldl passStep (s, c, false) = (s, c, false) := by
  induction l with
  | nil => intro s c _; rfl
  | cons i t ih =>
      intro s c h
      simp only [List.foldl_cons, passStep] at h ⊢
      split at h
      · rw [foldl_passStep_improved_stays] at h; exact absurd h (by simp)
      · rename_i hge
        rw [flipBit_flipBit] at h
        rw [if_neg hge, flipBit_flipBit]
        exact ih _ _ h

/-- If a pass that started with `improved = False` ends with it still
clear, every tested single-bit flip failed to strictly improve the cost. -/
theorem foldl_passStep_rejected (l : List Nat) :
    ∀ s c, (l.foldl passStep (s, c, false)).2.2 = false →
      ∀ i ∈ l, ¬ labs_cost (flipBit s i) < c := by
  induction l with
  | nil => intro s c _ i hi; simp at hi
  | cons j t ih =>
      intro s c h i hi
      have hstep := h
      simp only [List.foldl_cons, passStep] at hstep
      split at hstep
      · rw [foldl_passStep_improved_stays] at hstep; exact absurd hstep (by simp)
      · rename_i hge
        rw [flipBit_flipBit] at hstep
        rcases List.mem_cons.mp hi with rfl | hmem
        · exact hge
        · exact ih s c hstep i hmem

theorem onePass_improved (s : List Int) (c : Int) (h : (onePass s c).2.2 = true) :
    (onePass s c).2.1 < c ∧ 0 ≤ (onePass s c).2.1 :=
  foldl_passStep_strict _ s c h

/-- Embedding of the `while True` loop of `hill_climb_deterministic`
(core.py lines 98-120): run a full pass; if it improved, loop with the new
sequence and cost, otherwise stop. Termination: the cost is a non-negative
integer that strictly decreases on every improving pass. -/
def climb (s : List Int) (c : Int) : List Int × Int :=
  let r := onePass s c
  if h : r.2.2 then climb r.1 r.2.1 else (r.1, r.2.1)
termination_by c.toNat
decreasing_by
  have := onePass_improved s c h
  omega

/-- Embedding of `hill_climb_deterministic` (core.py lines 75-122): start
from a working copy of the input with its cost and loop until a pass makes
no change. -/
def hill_climb_deterministic (s : List Int) : List Int × Int :=
  climb s (labs_cost s)

/-- Embedding of `optimize_from_seed` (core.py lines 163-180): it simply
delegates to the deterministic hill climber. -/
def optimize_from_seed (seed_sequence : List Int) : List Int × Int :=
  hill_climb_deterministic seed_sequence

theorem climb_eq (s : List Int) (c : Int) :
    climb s c =
      if (onePass s c).2.2 then climb (onePass s c).1 (onePass s c).2.1
      else ((onePass s c).1, (onePass s c).2.1) := by
  rw [climb]
  by_cases h : (onePass s c).2.2
  · rw [dif_pos h, if_pos h]
  · rw [dif_neg h, if_neg h]

/-- Along the `while` loop the invariant `cost = labs_cost seq` is kept, and
the cost never increases. -/
theorem climb_spec : ∀ n (s : List Int) (c : Int), c.toNat = n → c = labs_cost s →
    (climb s c).2 = labs_cost (climb s c).1 ∧ (climb s c).2 ≤ c := by
  intro n
  induction n using Nat.strong_induction_on with
  | _ n ih =>
    intro s c hn hc
    rw [climb_eq]
    by_cases himp : (onePass s c).2.2
    · rw [if_pos himp]
      have hstrict := onePass_improved s c himp
      have hinv : (onePass s c).2.1 = labs_cost (onePass s c).1 :=
        foldl_passStep_invariant _ s c false hc
      have hrec := ih ((onePass s c).2.1).toNat (by omega) (onePass s c).1
        (onePass s c).2.1 rfl hinv
      exact ⟨hrec.1, le_trans hrec.2 (le_of_lt hstrict.1)⟩
    · rw [if_neg himp]
      exact ⟨foldl_passStep_invariant _ s c false hc,
        foldl_passStep_cost_le _ s c false⟩

/-- The pair the loop returns is a fixed point: one further pass over it
changes nothing and reports no improvement. -/
theorem climb_fixpoint : ∀ n (s : List Int) (c : Int), c.toNat = n → c = labs_cost s →
    onePass (climb s c).1 (climb s c).2 = ((climb s c).1, (climb s c).2, false) := by
  intro n
  induction n using Nat.strong_induction_on with
  | _ n ih =>
    intro s c hn hc
    rw [climb_eq]
    by_cases himp : (onePass s c).2.2
    · rw [if_pos himp]
      have hstrict := onePass_improved s c himp
      have hinv : (onePass s c).2.1 = labs_cost (onePass s c).1 :=
        foldl_passStep_invariant _ s c false hc
      exact ih ((onePass s c).2.1).toNat (by omega) (onePass s c).1
        (onePass s c).2.1 rfl hinv
    · rw [if_neg himp]
      have hnone := foldl_passStep_noimprove _ s c (by simpa using himp)
      have hps : onePass s c = (s, c, false) := hnone
      simp only [hps]

/-- Fuel-indexed version of the `while True` loop: `none` means the pass
budget ran out before convergence. -/
def climbFuel : Nat → List Int → Int → Option (List Int × Int)
  | 0, _, _ => none
  | fuel + 1, s, c =>
      let r := onePass s c
      if r.2.2 then climbFuel fuel r.1 r.2.1 else some (r.1, r.2.1)

/-- A fuel of more than `c.toNat` passes always suffices: the loop converges
to the value of `climb` within that many passes. -/
theorem climbFuel_eq_climb : ∀ (fuel : Nat) (s : List Int) (c : Int),
    0 ≤ c → c.toNat < fuel → climbFuel fuel s c = some (climb s c) := by
  intro fuel
  induction fuel with
  | zero => intro s c _ h; omega
  | succ fuel ih =>
      intro s c hc hlt
      rw [climb_eq]
      simp only [climbFuel]
      by_cases himp : (onePass s c).2.2
      · rw [if_pos himp, if_pos himp]
        have hstrict := onePass_improved s c himp
        exact ih _ _ hstrict.2 (by omega)
      · rw [if_neg himp, if_neg himp]

/-- Embedding of `generate_random_sequence` (core.py lines 41-51): the `N`
draws of `random.choice([-1, 1])` are modelled as reading the next `N`
values of the external draw stream `g`, starting at offset `off`. -/
def generate_random_sequence (g : Nat → Int) (off : Nat) (N : Nat) : List Int :=
  (List.range N).map (fun i => g (off + i))

/-- One iteration of the `for r in range(num_restarts)` loop of
`solve_labs_random_restart` (core.py lines 147-158): generate a fresh
random start, hill climb, and keep the new result only when its cost
strictly improves on the best cost so far. The `Nat` component tracks how
many draws of the stream have been consumed. -/
def restartStep (g : Nat → Int) (N : Nat)
    (acc : (Option (List Int) × WithTop Int) × Nat) (_r : Nat) :
    (Option (List Int) × WithTop Int) × Nat :=
  let off := acc.2
  let start_seq := generate_random_sequence g off N
  let fr := hill_climb_deterministic start_seq
  if (fr.2 : WithTop Int) < acc.1.2 then ((some fr.1, (fr.2 : WithTop Int)), off + N)
  else (acc.1, off + N)

/-- Embedding of `solve_labs_random_restart` (core.py lines 125-160):
`best_seq = None` and `best_cost = float('inf')` (modelled as `⊤`),
followed by the restart loop; `range(num_restarts)` of a Python integer is
`List.range num_restarts.toNat` (empty when `num_restarts ≤ 0`). -/
def solve_labs_random_restart (g : Nat → Int) (N : Nat) (num_restarts : Int) :
    Option (List Int) × WithTop Int :=
  ((List.range num_restarts.toNat).foldl (restartStep g N)
    ((none, (⊤ : WithTop Int)), 0)).1

/-- Refined result of the `r`-th restart: restart `r` consumes the draws
at offsets `r*N .. r*N + N - 1` of the stream. -/
def results (g : Nat → Int) (N : Nat) (r : Nat) : List Int × Int :=
  hill_climb_deterministic (generate_random_sequence g (r * N) N)

theorem restartStep_off (g : Nat → Int) (N : Nat)
    (acc : (Option (List Int) × WithTop Int) × Nat) (r : Nat) :
    (restartStep g N acc r).2 = acc.2 + N := by
  simp only [restartStep]
  split <;> rfl

theorem foldl_restart_off (g : Nat → Int) (N : Nat) :
    ∀ m, ((List.range m).foldl (restartStep g N) ((none, (⊤ : WithTop Int)), 0)).2
      = m * N := by
  intro m
  induction m with
  | zero => simp
  | succ m ih =>
      rw [List.range_succ, List.foldl_append, List.foldl_cons, List.foldl_nil,
        restartStep_off, ih]
      ring

/-- After `m ≥ 1` restarts the running best is the first-found minimum of
the refined results of restarts `0 .. m-1`. -/
theorem foldl_restart_best (g : Nat → Int) (N : Nat) :
    ∀ m, 1 ≤ m →
      ∃ k, k < m ∧
        ((List.range m).foldl (restartStep g N) ((none, (⊤ : WithTop Int)), 0)).1
          = (some (results g N k).1, ((results g N k).2 : WithTop Int)) ∧
        (∀ j, j < m → (results g N k).2 ≤ (results g N j).2) ∧
        (∀ j, j < k → (results g N k).2 < (results g N j).2) := by
  intro m
  induction m with
  | zero => omega
  | succ m ih =>
      intro _
      rw [List.range_succ, List.foldl_append, List.foldl_cons, List.foldl_nil]
      rcases Nat.eq_zero_or_pos m with rfl | hm
      · refine ⟨0, Nat.zero_lt_one, ?_, ?_, ?_⟩
        · simp only [List.range_zero, List.foldl_nil, restartStep, results]
          rw [if_pos (WithTop.coe_lt_top _)]
          simp [Nat.zero_mul]
        · intro j hj
          interval_cases j
          exact le_refl _
        · intro j hj; omega
      · obtain ⟨k, hk, hbest, hmin, hfirst⟩ := ih hm
        have hoff := foldl_restart_off g N m
        simp only [restartStep, hoff, hbest]
        rw [show generate_random_sequence g (m * N) N
            = generate_random_sequence g (m * N) N from rfl]
        by_cases hlt : (((results g N m).2 : WithTop Int))
            < (((results g N k).2 : WithTop Int))
        · rw [if_pos (by simpa [results] using hlt)]
          have hmlt : (results g N m).2 < (results g N k).2 :=
            WithTop.coe_lt_coe.mp hlt
          refine ⟨m, Nat.lt_succ_self m, by simp [results], ?_, ?_⟩
          · intro j hj
            rcases Nat.lt_succ_iff_lt_or_eq.mp hj with hj' | rfl
            · exact le_of_lt (lt_of_lt_of_le hmlt (hmin j hj'))
            · exact le_refl _
          · intro j hj
            exact lt_of_lt_of_le hmlt (hmin j hj)
        · rw [if_neg (by simpa [results] using hlt)]
          have hmge : (results g N k).2 ≤ (results g N m).2 :=
            not_lt.mp (fun hcon => hlt (WithTop.coe_lt_coe.mpr hcon))
          refine ⟨k, Nat.lt_succ_of_lt hk, rfl, ?_, hfirst⟩
          intro j hj
          rcases Nat.lt_succ_iff_lt_or_eq.mp hj with hj' | rfl
          · exact hmin j hj'
          · exact hmge

theorem list_range_map_sum (f : Nat → Int) (n : Nat) :
    ((List.range n).map f).sum = ∑ i in Finset.range n, f i := by
  induction n with
  | zero => simp
  | succ n ih =>
      rw [List.range_succ, List.map_append, List.sum_append,
        Finset.sum_range_succ, ih]
      simp

theorem list_range'_map_sum (f : Nat → Int) :
    ∀ (n a : Nat), ((List.range' a n).map f).sum = ∑ i in Finset.range n, f (a + i) := by
  intro n
  induction n with
  | zero => intro a; simp
  | succ n ih =>
      intro a
      rw [List.range'_succ, List.map_cons, List.sum_cons, ih (a + 1),
        Finset.sum_range_succ' (fun i => f (a + i)) n]
      have h1 : ∀ i, a + 1 + i = a + (i + 1) := by omega
      simp only [h1, Nat.add_zero]
      exact add_comm _ _

theorem sum_Icc_one (f : Nat → Int) :
    ∀ n, ∑ k in Finset.Icc 1 n, f k = ∑ i in Finset.range n, f (1 + i) := by
  intro n
  induction n with
  | zero => simp
  | succ n ih =>
      rw [Finset.sum_Icc_succ_top (by omega) f, ih, Finset.sum_range_succ,
        Nat.add_comm 1 n]

theorem autocorrelation_eq_C_spec (s : List Int) (k : Nat) :
    autocorrelation s k = C_spec s k :=
  list_range_map_sum _ _

/-- The loop-accumulated cost equals the closed-form double sum of the
spec. -/
theorem labs_cost_eq_evaluate_spec (s : List Int) :
    labs_cost s = evaluate_spec s := by
  unfold labs_cost evaluate_spec
  rw [list_range'_map_sum (fun k => autocorrelation s k ^ 2) (s.length - 1) 1,
    sum_Icc_one]
  exact Finset.sum_congr rfl (fun i _ => by rw [autocorrelation_eq_C_spec])

theorem getD_neg_map (s : List Int) :
    ∀ i, (s.map (fun x => -x)).getD i 0 = -(s.getD i 0) := by
  induction s with
  | nil => intro i; simp [List.getD]
  | cons a t ih =>
      intro i
      cases i with
      | zero => simp [List.getD]
      | succ j => simpa [List.getD] using ih j

theorem autocorrelation_neg_map (s : List Int) (k : Nat) :
    autocorrelation (s.map (fun x => -x)) k = autocorrelation s k := by
  unfold autocorrelation
  rw [List.length_map]
  have h : (fun i => (s.map (fun x => -x)).getD i 0 * (s.map (fun x => -x)).getD (i + k) 0)
      = (fun i => s.getD i 0 * s.getD (i + k) 0) := by
    funext i
    rw [getD_neg_map, getD_neg_map, neg_mul_neg]
  rw [h]

/-- Global sign flip leaves the cost unchanged. -/
theorem labs_cost_neg_map (s : List Int) :
    labs_cost (s.map (fun x => -x)) = labs_cost s := by
  unfold labs_cost
  rw [List.length_map]
  have h : (fun k => autocorrelation (s.map (fun x => -x)) k ^ 2)
      = (fun k => autocorrelation s k ^ 2) := by
    funext k
    rw [autocorrelation_neg_map]
  rw [h]

theorem getD_reverse (s : List Int) (i : Nat) (h : i < s.length) :
    s.reverse.getD i 0 = s.getD (s.length - 1 - i) 0 := by
  have h1 : i < s.reverse.length := by simpa using h
  have h2 : s.length - 1 - i < s.length := by omega
  rw [List.getD_eq_getElem _ _ h1, List.getD_eq_getElem _ _ h2]
  rw [List.getElem_reverse]

theorem autocorrelation_reverse (s : List Int) (k : Nat) :
    autocorrelation s.reverse k = autocorrelation s k := by
  unfold autocorrelation
  rw [List.length_reverse, list_range_map_sum, list_range_map_sum]
  rcases Nat.lt_or_ge k s.length with hk | hk
  · have hcongr : ∀ i ∈ Finset.range (s.length - k),
        s.reverse.getD i 0 * s.reverse.getD (i + k) 0
          = (fun j => s.getD (j + k) 0 * s.getD j 0) (s.length - k - 1 - i) := by
      intro i hi
      simp only [Finset.mem_range] at hi
      rw [getD_reverse s i (by omega), getD_reverse s (i + k) (by omega)]
      have e1 : s.length - 1 - i = (s.length - k - 1 - i) + k := by omega
      have e2 : s.length - 1 - (i + k) = s.length - k - 1 - i := by omega
      rw [e1, e2]
    rw [Finset.sum_congr rfl hcongr,
      Finset.sum_range_reflect (fun j => s.getD (j + k) 0 * s.getD j 0) (s.length - k)]
    exact Finset.sum_congr rfl (fun j _ => mul_comm _ _)
  · have h0 : s.length - k = 0 := by omega
    rw [h0]
    simp

/-- Reversal leaves the cost unchanged. -/
theorem labs_cost_reverse (s : List Int) :
    labs_cost s.reverse = labs_cost s := by
  unfold labs_cost
  rw [List.length_reverse]
  have h : (fun k => autocorrelation s.reverse k ^ 2)
      = (fun k => autocorrelation s k ^ 2) := by
    funext k
    rw [autocorrelation_reverse]
  rw [h]

/-- State of the two Python list objects alive during a call of
`hill_climb_deterministic`: the caller's `sequence` argument and the
internal working copy `current_seq` created by `list(sequence)`
(core.py line 93). -/
structure ClimbState where
  caller : List Int
  work : List Int

/-- The in-place update `current_seq[i] *= -1` writes to the working copy
only; the caller's object is not touched. -/
def flipWork (st : ClimbState) (i : Nat) : ClimbState :=
  { st with work := flipBit st.work i }

/-- Object-level version of `passStep`: the same inner-loop step of
`hill_climb_deterministic`, recorded on the two-object state. -/
def passStepS (acc : ClimbState × Int × Bool) (i : Nat) : ClimbState × Int × Bool :=
  let st := acc.1
  let c := acc.2.1
  let st1 := flipWork st i
  let c1 := labs_cost st1.work
  if c1 < c then (st1, c1, true) else (flipWork st1 i, c, acc.2.2)

/-- Object-level version of `onePass`. -/
def onePassS (st : ClimbState) (c : Int) : ClimbState × Int × Bool :=
  (List.range st.work.length).foldl passStepS (st, c, false)

theorem foldl_passStepS_eq (l : List Nat) :
    ∀ (st : ClimbState) (c : Int) (b : Bool),
      l.foldl passStepS (st, c, b)
        = (⟨st.caller, (l.foldl passStep (st.work, c, b)).1⟩,
           (l.foldl passStep (st.work, c, b)).2) := by
  induction l with
  | nil => intro st c b; rfl
  | cons i t ih =>
      intro st c b
      simp only [List.foldl_cons]
      by_cases hc : labs_cost (flipBit st.work i) < c
      · rw [show passStepS (st, c, b) i
            = (⟨st.caller, flipBit st.work i⟩, labs_cost (flipBit st.work i), true) from by
              simp [passStepS, flipWork, hc],
          show passStep (st.work, c, b) i
            = (flipBit st.work i, labs_cost (flipBit st.work i), true) from by
              simp [passStep, hc]]
        exact ih _ _ _
      · rw [show passStepS (st, c, b) i = (⟨st.caller, st.work⟩, c, b) from by
              simp [passStepS, flipWork, hc, flipBit_flipBit],
          show passStep (st.work, c, b) i = (st.work, c, b) from by
              simp [passStep, hc, flipBit_flipBit]]
        exact ih st c b

theorem onePassS_eq (st : ClimbState) (c : Int) :
    onePassS st c
      = (⟨st.caller, (onePass st.work c).1⟩, (onePass st.work c).2) :=
  foldl_passStepS_eq _ st c false

/-- Object-level version of the `while True` loop; the caller's object is
carried through the state untouched. -/
def climbS (st : ClimbState) (c : Int) : ClimbState × Int :=
  let r := onePassS st c
  if h : r.2.2 then climbS r.1 r.2.1 else (r.1, r.2.1)
termination_by c.toNat
decreasing_by
  have h1 : (onePass st.work c).2.2 = true := by
    have h0 : (onePassS st c).2.2 = true := h
    rw [onePassS_eq st c] at h0
    exact h0
  have h2 : (onePassS st c).2.1 = (onePass st.work c).2.1 := by
    rw [onePassS_eq st c]
  have h3 := onePass_improved st.work c h1
  show (onePassS st c).2.1.toNat < c.toNat
  rw [h2]
  omega

theorem climbS_eq (st : ClimbState) (c : Int) :
    climbS st c =
      if (onePassS st c).2.2 then climbS (onePassS st c).1 (onePassS st c).2.1
      else ((onePassS st c).1, (onePassS st c).2.1) := by
  rw [climbS]
  by_cases h : (onePassS st c).2.2
  · rw [dif_pos h, if_pos h]
  · rw [dif_neg h, if_neg h]

/-- The object-level loop computes the value-level loop on the working
copy and never changes the caller's object. -/
theorem climbS_eq_climb : ∀ n (st : ClimbState) (c : Int), c.toNat = n →
    climbS st c = (⟨st.caller, (climb st.work c).1⟩, (climb st.work c).2) := by
  intro n
  induction n using Nat.strong_induction_on with
  | _ n ih =>
    intro st c hn
    rw [climbS_eq, climb_eq, onePassS_eq]
    by_cases himp : (onePass st.work c).2.2
    · rw [if_pos himp, if_pos himp]
      have hstrict := onePass_improved st.work c himp
      exact ih ((onePass st.work c).2.1).toNat (by omega) _ _ rfl
    · rw [if_neg himp, if_neg himp]

/-- Object-level embedding of one call `hill_climb_deterministic(sequence)`:
`current_seq = list(sequence)` copies the contents of the caller's object
into a fresh working copy, then the loop runs on that copy. -/
def hill_climb_call (s : List Int) : ClimbState × Int :=
  climbS ⟨s, s⟩ (labs_cost s)

theorem hill_climb_cost_eq (s : List Int) :
    (hill_climb_deterministic s).2 = labs_cost (hill_climb_deterministic s).1 :=
  (climb_spec (labs_cost s).toNat s (labs_cost s) rfl rfl).1

theorem hill_climb_fixpoint (s : List Int) :
    onePass (hill_climb_deterministic s).1 (hill_climb_deterministic s).2
      = ((hill_climb_deterministic s).1, (hill_climb_deterministic s).2, false) :=
  climb_fixpoint (labs_cost s).toNat s (labs_cost s) rfl rfl

/-- C1: for every sequence of length `N ≥ 1` with every element in
`{-1, +1}`, `labs_cost s` equals the sum over shifts `k = 1 .. N-1` of the
square of `C_k = Σ_{i=0}^{N-k-1} s[i]·s[i+k]`; in particular
`labs_cost [1,1,1,1,1] = 30`. -/
theorem claim_C1 :
    (∀ s : List Int, 1 ≤ s.length → (∀ x ∈ s, x = 1 ∨ x = -1) →
      labs_cost s = evaluate_spec s) ∧
    labs_cost [1, 1, 1, 1, 1] = 30 :=
  ⟨fun s _ _ => labs_cost_eq_evaluate_spec s, by decide⟩

theorem claim_C1_witness :
    (1 ≤ ([1, -1, 1] : List Int).length ∧
      (∀ x ∈ ([1, -1, 1] : List Int), x = 1 ∨ x = -1)) ∧
    labs_cost [1, -1, 1] = evaluate_spec [1, -1, 1] :=
  ⟨⟨by decide, by decide⟩, claim_C1.1 [1, -1, 1] (by decide) (by decide)⟩

/-- C2: for every ±1 sequence of length at least 1, the hill climber
returns a pair whose cost equals the cost of the returned sequence and is
at most the cost of the input sequence. -/
theorem claim_C2 (s : List Int) (h1 : 1 ≤ s.length)
    (h2 : ∀ x ∈ s, x = 1 ∨ x = -1) :
    (hill_climb_deterministic s).2 = labs_cost (hill_climb_deterministic s).1 ∧
    (hill_climb_deterministic s).2 ≤ labs_cost s :=
  climb_spec (labs_cost s).toNat s (labs_cost s) rfl rfl

theorem claim_C2_witness :
    (1 ≤ ([1, 1] : List Int).length ∧ (∀ x ∈ ([1, 1] : List Int), x = 1 ∨ x = -1)) ∧
    ((hill_climb_deterministic [1, 1]).2
        = labs_cost (hill_climb_deterministic [1, 1]).1 ∧
      (hill_climb_deterministic [1, 1]).2 ≤ labs_cost [1, 1]) :=
  ⟨⟨by decide, by decide⟩, claim_C2 [1, 1] (by decide) (by decide)⟩

/-- C3: for every ±1 sequence of length at least 1 the hill-climbing loop
terminates after finitely many passes: because the cost is a non-negative
integer that strictly decreases on every improving pass, a pass budget of
`labs_cost s + 1` already makes the fuelled loop converge, to the value of
the unbounded loop. -/
theorem claim_C3 (s : List Int) (h1 : 1 ≤ s.length)
    (h2 : ∀ x ∈ s, x = 1 ∨ x = -1) :
    climbFuel ((labs_cost s).toNat + 1) s (labs_cost s)
      = some (hill_climb_deterministic s) :=
  climbFuel_eq_climb _ s (labs_cost s) (labs_cost_nonneg s) (Nat.lt_succ_self _)

theorem claim_C3_witness :
    (1 ≤ ([1, 1] : List Int).length ∧ (∀ x ∈ ([1, 1] : List Int), x = 1 ∨ x = -1)) ∧
    climbFuel ((labs_cost [1, 1]).toNat + 1) [1, 1] (labs_cost [1, 1])
      = some (hill_climb_deterministic [1, 1]) :=
  ⟨⟨by decide, by decide⟩, claim_C3 [1, 1] (by decide) (by decide)⟩

/-- C4: for every ±1 sequence of length at least 1 the cost is invariant
under a global sign flip and under reversal. -/
theorem claim_C4 (s : List Int) (h1 : 1 ≤ s.length)
    (h2 : ∀ x ∈ s, x = 1 ∨ x = -1) :
    labs_cost s = labs_cost (s.map (fun x => -x)) ∧
    labs_cost s = labs_cost s.reverse :=
  ⟨(labs_cost_neg_map s).symm, (labs_cost_reverse s).symm⟩

theorem claim_C4_witness :
    (1 ≤ ([1, -1] : List Int).length ∧ (∀ x ∈ ([1, -1] : List Int), x = 1 ∨ x = -1)) ∧
    (labs_cost [1, -1] = labs_cost (([1, -1] : List Int).map (fun x => -x)) ∧
      labs_cost [1, -1] = labs_cost ([1, -1] : List Int).reverse) :=
  ⟨⟨by decide, by decide⟩, claim_C4 [1, -1] (by decide) (by decide)⟩

/-- C5: the hill climber is idempotent: refining the returned sequence a
second time yields the same cost. -/
theorem claim_C5 (s : List Int) (h1 : 1 ≤ s.length)
    (h2 : ∀ x ∈ s, x = 1 ∨ x = -1) :
    (hill_climb_deterministic (hill_climb_deterministic s).1).2
      = (hill_climb_deterministic s).2 := by
  have hfix := hill_climb_fixpoint s
  have hinv := hill_climb_cost_eq s
  unfold hill_climb_deterministic
  unfold hill_climb_deterministic at hfix hinv
  rw [← hinv, climb_eq, hfix]
  simp

theorem claim_C5_witness :
    (1 ≤ ([1, 1] : List Int).length ∧ (∀ x ∈ ([1, 1] : List Int), x = 1 ∨ x = -1)) ∧
    (hill_climb_deterministic (hill_climb_deterministic [1, 1]).1).2
      = (hill_climb_deterministic [1, 1]).2 :=
  ⟨⟨by decide, by decide⟩, claim_C5 [1, 1] (by decide) (by decide)⟩

/-- C6: `optimize_from_seed` returns exactly the pair the hill climber
returns on the same seed: the two entry points are behaviorally identical,
with no additional validation or transformation. -/
theorem claim_C6 (seed : List Int) :
    optimize_from_seed seed = hill_climb_deterministic seed := rfl

/-- C7: a call of the hill climber does not mutate the caller's sequence
object: all in-place flips hit the working copy `list(sequence)`, so after
the call the caller's object holds exactly its original elements, and the
returned pair is that of the value-level function. -/
theorem claim_C7 (s : List Int) :
    (hill_climb_call s).1.caller = s ∧
    (hill_climb_call s).1.work = (hill_climb_deterministic s).1 ∧
    (hill_climb_call s).2 = (hill_climb_deterministic s).2 := by
  have h := climbS_eq_climb (labs_cost s).toNat ⟨s, s⟩ (labs_cost s) rfl
  unfold hill_climb_call hill_climb_deterministic
  rw [h]
  exact ⟨rfl, rfl, rfl⟩

/-- C8 counterexample: called with `restarts = 0 ≤ 0`, the function raises
no error at all: the restart loop body never runs and the sentinel pair
`best_seq = None`, `best_cost = float('inf')` is returned unchanged. -/
theorem claim_C8_counterexample :
    solve_labs_random_restart (fun _ => 1) 5 0 = (none, (⊤ : WithTop Int)) := rfl

/-- C8 amended: called with `restarts ≤ 0`, `solve_labs_random_restart`
performs no restart and returns the sentinel/no-op pair
`(None, float('inf'))` instead of failing with an invalid-argument error. -/
theorem claim_C8_amended (g : Nat → Int) (N : Nat) (restarts : Int)
    (h : restarts ≤ 0) :
    solve_labs_random_restart g N restarts = (none, (⊤ : WithTop Int)) := by
  unfold solve_labs_random_restart
  rw [show restarts.toNat = 0 by omega]
  rfl

theorem claim_C8_amended_witness :
    (-3 : Int) ≤ 0 ∧
    solve_labs_random_restart (fun _ => 1) 5 (-3) = (none, (⊤ : WithTop Int)) :=
  ⟨by decide, claim_C8_amended (fun _ => 1) 5 (-3) (by decide)⟩

/-- C9: for every draw stream `g`, length `N ≥ 1` and `restarts ≥ 1`, the
function returns the pair of the first restart attaining the minimum cost
among the refined results of all restarts; its cost is exactly the cost of
its sequence; the sequence is a converged local optimum (no single-bit
flip strictly improves it); and every earlier restart has strictly larger
cost (first-found wins on ties). -/
theorem claim_C9 (g : Nat → Int) (N : Nat) (restarts : Int)
    (hN : 1 ≤ N) (hr : 1 ≤ restarts) :
    ∃ k, k < restarts.toNat ∧
      solve_labs_random_restart g N restarts
        = (some (results g N k).1, ((results g N k).2 : WithTop Int)) ∧
      (results g N k).2 = labs_cost (results g N k).1 ∧
      (∀ i, i < (results g N k).1.length →
        ¬ labs_cost (flipBit (results g N k).1 i) < (results g N k).2) ∧
      (∀ j, j < restarts.toNat → (results g N k).2 ≤ (results g N j).2) ∧
      (∀ j, j < k → (results g N k).2 < (results g N j).2) := by
  have hm : 1 ≤ restarts.toNat := by omega
  obtain ⟨k, hk, hbest, hmin, hfirst⟩ := foldl_restart_best g N restarts.toNat hm
  refine ⟨k, hk, hbest, ?_, ?_, hmin, hfirst⟩
  · exact hill_climb_cost_eq _
  · intro i hi
    have hflag : (onePass (results g N k).1 (results g N k).2).2.2 = false := by
      simp only [results]
      rw [hill_climb_fixpoint]
    exact foldl_passStep_rejected (List.range (results g N k).1.length)
      (results g N k).1 (results g N k).2 hflag i (List.mem_range.mpr hi)

theorem claim_C9_witness :
    1 ≤ 1 ∧ 1 ≤ (1 : Int) ∧
      ∃ k, k < (1 : Int).toNat ∧
        solve_labs_random_restart (fun _ => 1) 1 1
          = (some (results (fun _ => 1) 1 k).1,
             ((results (fun _ => 1) 1 k).2 : WithTop Int)) ∧
        (results (fun _ => 1) 1 k).2 = labs_cost (results (fun _ => 1) 1 k).1 ∧
        (∀ i, i < (results (fun _ => 1) 1 k).1.length →
          ¬ labs_cost (flipBit (results (fun _ => 1) 1 k).1 i)
            < (results (fun _ => 1) 1 k).2) ∧
        (∀ j, j < (1 : Int).toNat →
          (results (fun _ => 1) 1 k).2 ≤ (results (fun _ => 1) 1 j).2) ∧
        (∀ j, j < k → (results (fun _ => 1) 1 k).2 < (results (fun _ => 1) 1 j).2) :=
  ⟨le_refl 1, le_refl 1, claim_C9 (fun _ => 1) 1 1 (le_refl 1) (le_refl 1)⟩

/-- C10: `labs_cost` is total on every finite list of integers, with no
validation of length or element domain: it always returns a non-negative
integer, and on the empty list it returns 0. -/
theorem claim_C10 :
    (∀ s : List Int, 0 ≤ labs_cost s) ∧ labs_cost ([] : List Int) = 0 :=
  ⟨labs_cost_nonneg, rfl⟩
